import Mathlib

/-!
Shallow embedding of the roster state machine of `src/event_bot.py`
(meetupmozyr-svg/movieclub-bot).

The bot keeps, per event, a dictionary with the fields `capacity : int`,
`joined : list` and `waitlist : list` of participant entries
`{id, name, username}` (see `user_entry`, lines 73-81, and the event
literals at lines 255-268, 336-348, 477-490).  The roster mutators are:

* the `join`/`leave` branches of `button_handler` (lines 535-629),
* `remove_participant_command` (lines 651-743),
* the capacity branch (`fld == 3`) of `edit_new_value` (lines 930-966).

Each mutator is translated below as a pure function on an `Event` value;
the promotion `while` loop (identical at lines 599-601, 712-715 and
951-954) becomes the structural recursion `promote_from_waitlist`.
Capacities are Python ints, embedded as `Int`.
-/

structure Participant where
  id : Int
  name : String
  username : Option String
deriving DecidableEq, Repr

structure Event where
  capacity : Int
  joined : List Participant
  waitlist : List Participant
deriving DecidableEq, Repr

/-- Ids of the entries of a participant list, in list order. -/
def idsOf (l : List Participant) : List Int := l.map Participant.id

/-- The filter `[u for u in lst if u["id"] != uid]` used by lines
574-575 and 694, 701 of the source. -/
def removeUid (uid : Int) (l : List Participant) : List Participant :=
  l.filter (fun u => u.id != uid)

/-- Outcome label of a join: `confirmed` for the response string at line
581 ("Вы успешно записаны"), `waitlisted` for the one at line 584
("вы добавлены в лист ожидания"). -/
inductive JoinResult where
  | confirmed
  | waitlisted
deriving DecidableEq, Repr

/-- The promotion loop
`while len(event["joined"]) < event["capacity"] and event["waitlist"]:
promoted = event["waitlist"].pop(0); event["joined"].append(promoted)`
(lines 599-601; identically at 712-715 and 951-954).  Returns the new
`joined`, the new `waitlist`, and the promoted entries in the order they
were moved (one notification is sent per moved entry). -/
def promote_from_waitlist (capacity : Int) (joined : List Participant) :
    List Participant → List Participant × List Participant × List Participant
  | [] => (joined, [], [])
  | w :: ws =>
    if (joined.length : Int) < capacity then
      let r := promote_from_waitlist capacity (joined ++ [w]) ws
      (r.1, r.2.1, w :: r.2.2)
    else (joined, w :: ws, [])

/-- The `action == "join"` path of `button_handler` (lines 566-584):
if the user is in either list they are first filtered out of both
(lines 572-575), then appended to `joined` when
`len(event["joined"]) < event.get("capacity", 0)` (line 579), else to the
tail of `waitlist` (line 583).  No promotion runs on this path (the loop
at line 599 is guarded by `action == "leave"`). -/
def handle_join (e : Event) (ue : Participant) : Event × JoinResult :=
  let isJoined := e.joined.any (fun u => u.id == ue.id)
  let isWaiting := e.waitlist.any (fun u => u.id == ue.id)
  let e1 :=
    if isJoined || isWaiting then
      { e with joined := removeUid ue.id e.joined,
               waitlist := removeUid ue.id e.waitlist }
    else e
  if (e1.joined.length : Int) < e1.capacity then
    ({ e1 with joined := e1.joined ++ [ue] }, JoinResult.confirmed)
  else
    ({ e1 with waitlist := e1.waitlist ++ [ue] }, JoinResult.waitlisted)

/-- The `action == "leave"` path of `button_handler` (lines 566-618):
when the user is in neither list the handler answers an alert and
returns with no state change (lines 590-593, embedded as `none`);
otherwise the user is filtered out of both lists (lines 572-575) and,
when they had been in `joined`, the promotion loop runs (lines 598-601).
Returns the new event and the promoted entries. -/
def handle_leave (e : Event) (uid : Int) : Option (Event × List Participant) :=
  let isJoined := e.joined.any (fun u => u.id == uid)
  let isWaiting := e.waitlist.any (fun u => u.id == uid)
  if isJoined || isWaiting then
    let e1 := { e with joined := removeUid uid e.joined,
                       waitlist := removeUid uid e.waitlist }
    if isJoined then
      let r := promote_from_waitlist e1.capacity e1.joined e1.waitlist
      some ({ e1 with joined := r.1, waitlist := r.2.1 }, r.2.2)
    else
      some (e1, [])
  else
    none

/-- `remove_participant_command` roster logic (lines 688-737): filter the
user out of `joined` (line 694) and out of `waitlist` (line 701); if
neither list shrank the command reports "not found" with no state change
(`none`, lines 739-743); if `joined` shrank (`removed_from_list ==
"основного списка"`) the promotion loop runs (lines 711-715).  Returns
the new event and the promoted entries. -/
def remove_participant (e : Event) (uid : Int) : Option (Event × List Participant) :=
  let j1 := removeUid uid e.joined
  let removedFromJoined := j1.length < e.joined.length
  let w1 := removeUid uid e.waitlist
  let removedFromWaitlist := w1.length < e.waitlist.length
  if removedFromJoined ∨ removedFromWaitlist then
    if removedFromJoined then
      let r := promote_from_waitlist e.capacity j1 w1
      some ({ e with joined := r.1, waitlist := r.2.1 }, r.2.2)
    else
      some ({ e with joined := j1, waitlist := w1 }, [])
  else
    none

/-- The capacity branch (`fld == 3`) of `edit_new_value` (lines 930-966):
`capacity <= 0` raises `ValueError` at line 937, caught at line 1002,
before the assignment at line 939 — the event is untouched, embedded as
`none`.  Otherwise `event["capacity"] = capacity`; if
`len(event["joined"]) > capacity` the tail `joined[capacity:]` is moved
to the front of `waitlist` (lines 944-948); if `len < capacity` the
promotion loop runs (lines 949-954).  Returns the new event and the
promoted entries. -/
def edit_new_value_capacity (e : Event) (n : Int) : Option (Event × List Participant) :=
  if n ≤ 0 then none
  else if (e.joined.length : Int) > n then
    some ({ e with capacity := n,
                   joined := e.joined.take n.toNat,
                   waitlist := e.joined.drop n.toNat ++ e.waitlist }, [])
  else if (e.joined.length : Int) < n then
    let r := promote_from_waitlist n e.joined e.waitlist
    some ({ e with capacity := n, joined := r.1, waitlist := r.2.1 }, r.2.2)
  else
    some ({ e with capacity := n }, [])

/-- One inline-keyboard button: display text and `callback_data`. -/
structure Button where
  text : String
  callbackData : String
deriving DecidableEq, Repr

/-- `make_event_keyboard` (lines 119-141): with `capacity <= 0` the join
button is "Запись закрыта" with data `no_join`; with a full roster it is
the waitlist label; otherwise the join label.  The leave button is
always present. -/
def make_event_keyboard (eventId : String) (e : Event) : List (List Button) :=
  let spotsFilled := e.joined.length
  let capacity := e.capacity
  let waitLen := e.waitlist.length
  if capacity ≤ 0 then
    [[{ text := "🔒 Запись закрыта", callbackData := "no_join" },
      { text := "❌ Не смогу прийти", callbackData := "leave|" ++ eventId }]]
  else if (spotsFilled : Int) ≥ capacity then
    [[{ text := "🕒 Встать в лист ожидания (" ++ toString waitLen ++ ")",
        callbackData := "join|" ++ eventId },
      { text := "❌ Не смогу прийти", callbackData := "leave|" ++ eventId }]]
  else
    [[{ text := "✅ Записаться (" ++ toString spotsFilled ++ "/" ++ toString capacity ++ ")",
        callbackData := "join|" ++ eventId },
      { text := "❌ Не смогу прийти", callbackData := "leave|" ++ eventId }]]

/-- Roster effect of `button_handler` on the targeted event (lines
535-618): `no_join` data answers an alert and returns before any
mutation (lines 541-543); data that does not split into exactly two
parts raises `ValueError`, caught with no mutation (lines 551-554);
`join` and `leave` dispatch to the two paths above.  Any other action
would still persist the step-1 removal (lines 572-575, 594-595, 616),
but the handler pattern at line 1078 only admits `join`, `leave` and
`no_join`. -/
def button_handler (data : String) (ue : Participant) (e : Event) :
    Event × List Participant :=
  if data == "no_join" then (e, [])
  else
    match data.splitOn "|" with
    | [action, _] =>
      if action == "join" then ((handle_join e ue).1, [])
      else if action == "leave" then
        match handle_leave e ue.id with
        | some (e', p) => (e', p)
        | none => (e, [])
      else
        ({ e with joined := removeUid ue.id e.joined,
                  waitlist := removeUid ue.id e.waitlist }, [])
    | _ => (e, [])

/-- Reachable event states: created with a positive capacity and empty
lists (lines 241-268, 315-348, 416-490), then mutated by the join and
leave buttons, `/remove_participant`, and capacity edits. -/
inductive Reachable : Event → Prop where
  | create (c : Int) (h : 0 < c) :
      Reachable { capacity := c, joined := [], waitlist := [] }
  | join (e : Event) (ue : Participant) :
      Reachable e → Reachable (handle_join e ue).1
  | leave (e : Event) (uid : Int) (e' : Event) (p : List Participant) :
      Reachable e → handle_leave e uid = some (e', p) → Reachable e'
  | remove (e : Event) (uid : Int) (e' : Event) (p : List Participant) :
      Reachable e → remove_participant e uid = some (e', p) → Reachable e'
  | editCapacity (e : Event) (n : Int) (e' : Event) (p : List Participant) :
      Reachable e → edit_new_value_capacity e n = some (e', p) → Reachable e'

/-- The roster well-formedness invariant maintained by every mutator. -/
structure WF (e : Event) : Prop where
  cap_pos : 0 < e.capacity
  joined_le : (e.joined.length : Int) ≤ e.capacity
  joined_nodup : (idsOf e.joined).Nodup
  waitlist_nodup : (idsOf e.waitlist).Nodup
  disj : List.Disjoint (idsOf e.joined) (idsOf e.waitlist)
  full_of_waiting : e.waitlist ≠ [] → (e.joined.length : Int) = e.capacity

/-! ### Lemmas about `removeUid` -/

theorem removeUid_sublist (uid : Int) (l : List Participant) :
    List.Sublist (removeUid uid l) l :=
  List.filter_sublist l

theorem mem_removeUid {uid : Int} {l : List Participant} {p : Participant} :
    p ∈ removeUid uid l ↔ p ∈ l ∧ p.id ≠ uid := by
  simp [removeUid, List.mem_filter]

theorem idsOf_removeUid_sublist (uid : Int) (l : List Participant) :
    List.Sublist (idsOf (removeUid uid l)) (idsOf l) :=
  (removeUid_sublist uid l).map Participant.id

theorem not_mem_idsOf_removeUid (uid : Int) (l : List Participant) :
    uid ∉ idsOf (removeUid uid l) := by
  intro h
  rw [idsOf, List.mem_map] at h
  obtain ⟨u, hu, hid⟩ := h
  exact (mem_removeUid.mp hu).2 hid

theorem mem_idsOf_of_removeUid {uid : Int} {l : List Participant} {a : Int}
    (h : a ∈ idsOf (removeUid uid l)) : a ∈ idsOf l :=
  (idsOf_removeUid_sublist uid l).mem h

theorem removeUid_eq_self {uid : Int} {l : List Participant}
    (h : uid ∉ idsOf l) : removeUid uid l = l := by
  apply List.filter_eq_self.mpr
  intro u hu
  simp only [bne_iff_ne, ne_eq, decide_eq_true_eq]
  rintro rfl
  exact h (List.mem_map_of_mem Participant.id hu)

theorem length_removeUid_le (uid : Int) (l : List Participant) :
    (removeUid uid l).length ≤ l.length :=
  (removeUid_sublist uid l).length_le

theorem any_beq_iff (uid : Int) (l : List Participant) :
    (l.any (fun u => u.id == uid)) = true ↔ uid ∈ idsOf l := by
  simp only [List.any_eq_true, beq_iff_eq, idsOf, List.mem_map]

theorem length_removeUid_of_mem {uid : Int} {l : List Participant}
    (hn : (idsOf l).Nodup) (h : uid ∈ idsOf l) :
    (removeUid uid l).length + 1 = l.length := by
  induction l with
  | nil => simp [idsOf] at h
  | cons u tl ih =>
    simp only [idsOf, List.map_cons, List.nodup_cons] at hn
    obtain ⟨hu, htl⟩ := hn
    simp only [idsOf, List.map_cons, List.mem_cons] at h
    by_cases hid : u.id = uid
    · have htail : removeUid uid tl = tl := removeUid_eq_self (by
        show uid ∉ idsOf tl
        rw [idsOf]
        exact hid ▸ hu)
      have hcons : removeUid uid (u :: tl) = removeUid uid tl := by
        rw [removeUid, List.filter_cons, if_neg (by simp [hid]), removeUid]
      rw [hcons, htail, List.length_cons]
    · have h' : uid ∈ List.map Participant.id tl := by
        rcases h with h | h
        · exact absurd h.symm hid
        · exact h
      have hrec := ih htl (by rw [idsOf]; exact h')
      have hcons : removeUid uid (u :: tl) = u :: removeUid uid tl := by
        rw [removeUid, List.filter_cons, if_pos (by simp [hid]), removeUid]
      rw [hcons, List.length_cons, List.length_cons]
      omega

theorem removeUid_eq_of_not_lt {uid : Int} {l : List Participant}
    (h : ¬ (removeUid uid l).length < l.length) : removeUid uid l = l :=
  (removeUid_sublist uid l).eq_of_length (by
    have := length_removeUid_le uid l
    omega)

/-! ### Characterization of the promotion loop -/

theorem promote_from_waitlist_eq (c : Int) (w j : List Participant) :
    promote_from_waitlist c j w =
      (j ++ w.take (min (c - j.length).toNat w.length),
       w.drop (min (c - j.length).toNat w.length),
       w.take (min (c - j.length).toNat w.length)) := by
  induction w generalizing j with
  | nil => simp [promote_from_waitlist]
  | cons x ws ih =>
    by_cases h : (j.length : Int) < c
    · have hk : min (c - (j.length : Int)).toNat (ws.length + 1)
          = (min (c - ((j.length : Int) + 1)).toNat ws.length) + 1 := by
        omega
      simp only [promote_from_waitlist, if_pos h, ih (j ++ [x])]
      simp only [List.length_append, List.length_cons, List.length_nil,
        Nat.add_zero, Nat.cast_add, Nat.cast_one, List.length_singleton]
      rw [hk]
      simp [List.take_succ_cons, List.drop_succ_cons, List.append_assoc]
    · have h0 : (c - (j.length : Int)).toNat = 0 := by omega
      simp [promote_from_waitlist, if_neg h, h0]

theorem idsOf_append (l1 l2 : List Participant) :
    idsOf (l1 ++ l2) = idsOf l1 ++ idsOf l2 :=
  List.map_append Participant.id l1 l2

theorem nodup_take_drop {A B : List Int} (k : ℕ) (hA : A.Nodup) (hB : B.Nodup)
    (hd : List.Disjoint A B) :
    (A ++ B.take k).Nodup ∧ (B.drop k).Nodup ∧
      List.Disjoint (A ++ B.take k) (B.drop k) := by
  have htd : List.Disjoint (B.take k) (B.drop k) := by
    have h2 := hB
    rw [← List.take_append_drop k B] at h2
    exact (List.nodup_append.mp h2).2.2
  refine ⟨?_, (List.drop_sublist k B).nodup hB, ?_⟩
  · rw [List.nodup_append]
    exact ⟨hA, (List.take_sublist k B).nodup hB,
      fun a ha hb => hd ha (List.take_subset k B hb)⟩
  · intro a ha hb
    rcases List.mem_append.mp ha with h | h
    · exact hd h (List.drop_subset k B hb)
    · exact htd h hb

theorem promote_wf (c : Int) (j w : List Participant)
    (hlen : (j.length : Int) ≤ c)
    (hj : (idsOf j).Nodup) (hw : (idsOf w).Nodup)
    (hd : List.Disjoint (idsOf j) (idsOf w)) :
    ((promote_from_waitlist c j w).1.length : Int) ≤ c ∧
    (idsOf (promote_from_waitlist c j w).1).Nodup ∧
    (idsOf (promote_from_waitlist c j w).2.1).Nodup ∧
    List.Disjoint (idsOf (promote_from_waitlist c j w).1)
      (idsOf (promote_from_waitlist c j w).2.1) ∧
    ((promote_from_waitlist c j w).2.1 ≠ [] →
      ((promote_from_waitlist c j w).1.length : Int) = c) := by
  rw [promote_from_waitlist_eq]
  set k := min (c - (j.length : Int)).toNat w.length with hk
  have hids1 : idsOf (j ++ w.take k) = idsOf j ++ (idsOf w).take k := by
    rw [idsOf_append, idsOf, idsOf, idsOf, List.map_take]
  have hids2 : idsOf (w.drop k) = (idsOf w).drop k := by
    rw [idsOf, idsOf, List.map_drop]
  obtain ⟨hn1, hn2, hn3⟩ := nodup_take_drop k hj hw hd
  refine ⟨?_, by rw [hids1]; exact hn1, by rw [hids2]; exact hn2,
    by rw [hids1, hids2]; exact hn3, ?_⟩
  · simp only [List.length_append, List.length_take]
    omega
  · intro hne
    have hlen2 : k < w.length := by
      by_contra hge
      push_neg at hge
      exact hne (List.drop_eq_nil_of_le hge)
    simp only [List.length_append, List.length_take]
    omega

theorem handle_join_eq (e : Event) (ue : Participant) :
    handle_join e ue =
      if ((removeUid ue.id e.joined).length : Int) < e.capacity then
        ({ e with joined := removeUid ue.id e.joined ++ [ue],
                  waitlist := removeUid ue.id e.waitlist }, JoinResult.confirmed)
      else
        ({ e with joined := removeUid ue.id e.joined,
                  waitlist := removeUid ue.id e.waitlist ++ [ue] }, JoinResult.waitlisted) := by
  unfold handle_join
  by_cases hj : e.joined.any (fun u => u.id == ue.id) = true
  · simp [hj]
  · by_cases hw : e.waitlist.any (fun u => u.id == ue.id) = true
    · simp [hj, hw]
    · have h1 : removeUid ue.id e.joined = e.joined :=
        removeUid_eq_self (fun hmem => hj ((any_beq_iff _ _).mpr hmem))
      have h2 : removeUid ue.id e.waitlist = e.waitlist :=
        removeUid_eq_self (fun hmem => hw ((any_beq_iff _ _).mpr hmem))
      simp [hj, hw, h1, h2]

/-! ### Preservation of the invariant by each mutator -/

theorem wf_handle_join (e : Event) (ue : Participant) (h : WF e) :
    WF (handle_join e ue).1 := by
  obtain ⟨hcap, hle, hjn, hwn, hdisj, hfull⟩ := h
  rw [handle_join_eq]
  set j1 := removeUid ue.id e.joined with hj1
  set w1 := removeUid ue.id e.waitlist with hw1
  have hj1n : (idsOf j1).Nodup := (idsOf_removeUid_sublist _ _).nodup hjn
  have hw1n : (idsOf w1).Nodup := (idsOf_removeUid_sublist _ _).nodup hwn
  have hd1 : List.Disjoint (idsOf j1) (idsOf w1) :=
    fun _ ha hb => hdisj (mem_idsOf_of_removeUid ha) (mem_idsOf_of_removeUid hb)
  have hnotj : ue.id ∉ idsOf j1 := not_mem_idsOf_removeUid _ _
  have hnotw : ue.id ∉ idsOf w1 := not_mem_idsOf_removeUid _ _
  have hlej : j1.length ≤ e.joined.length := length_removeUid_le _ _
  by_cases hlt : ((j1.length : Int) < e.capacity)
  · rw [if_pos hlt]
    refine ⟨hcap, ?_, ?_, hw1n, ?_, ?_⟩
    · show (((j1 ++ [ue]).length : ℕ) : Int) ≤ e.capacity
      simp only [List.length_append, List.length_singleton]
      push_cast
      omega
    · show (idsOf (j1 ++ [ue])).Nodup
      rw [idsOf_append, List.nodup_append]
      refine ⟨hj1n, by simp [idsOf], ?_⟩
      intro a ha hb
      simp only [idsOf, List.map_cons, List.map_nil, List.mem_singleton] at hb
      exact hnotj (hb ▸ ha)
    · show List.Disjoint (idsOf (j1 ++ [ue])) (idsOf w1)
      intro a ha hb
      rw [idsOf_append, List.mem_append] at ha
      rcases ha with ha | ha
      · exact hd1 ha hb
      · simp only [idsOf, List.map_cons, List.map_nil, List.mem_singleton] at ha
        exact hnotw (ha ▸ hb)
    · show w1 ≠ [] → (((j1 ++ [ue]).length : ℕ) : Int) = e.capacity
      intro hne
      have hwne : e.waitlist ≠ [] := by
        intro h0
        apply hne
        rw [hw1, h0]
        rfl
      have hfull' := hfull hwne
      simp only [List.length_append, List.length_singleton]
      by_cases hmem : ue.id ∈ idsOf e.joined
      · have hone := length_removeUid_of_mem hjn hmem
        rw [← hj1] at hone
        push_cast
        omega
      · rw [hj1, removeUid_eq_self hmem] at hlt
        omega
  · rw [if_neg hlt]
    refine ⟨hcap, ?_, hj1n, ?_, ?_, ?_⟩
    · show ((j1.length : ℕ) : Int) ≤ e.capacity
      have : ((j1.length : ℕ) : Int) ≤ ((e.joined.length : ℕ) : Int) := by
        exact_mod_cast hlej
      omega
    · show (idsOf (w1 ++ [ue])).Nodup
      rw [idsOf_append, List.nodup_append]
      refine ⟨hw1n, by simp [idsOf], ?_⟩
      intro a ha hb
      simp only [idsOf, List.map_cons, List.map_nil, List.mem_singleton] at hb
      exact hnotw (hb ▸ ha)
    · show List.Disjoint (idsOf j1) (idsOf (w1 ++ [ue]))
      intro a ha hb
      rw [idsOf_append, List.mem_append] at hb
      rcases hb with hb | hb
      · exact hd1 ha hb
      · simp only [idsOf, List.map_cons, List.map_nil, List.mem_singleton] at hb
        exact hnotj (hb ▸ ha)
    · intro _
      show ((j1.length : ℕ) : Int) = e.capacity
      have : ((j1.length : ℕ) : Int) ≤ ((e.joined.length : ℕ) : Int) := by
        exact_mod_cast hlej
      omega

theorem wf_handle_leave (e : Event) (uid : Int) (e' : Event) (p : List Participant)
    (h : WF e) (heq : handle_leave e uid = some (e', p)) : WF e' := by
  obtain ⟨hcap, hle, hjn, hwn, hdisj, hfull⟩ := h
  unfold handle_leave at heq
  have hj1n : (idsOf (removeUid uid e.joined)).Nodup :=
    (idsOf_removeUid_sublist _ _).nodup hjn
  have hw1n : (idsOf (removeUid uid e.waitlist)).Nodup :=
    (idsOf_removeUid_sublist _ _).nodup hwn
  have hd1 : List.Disjoint (idsOf (removeUid uid e.joined))
      (idsOf (removeUid uid e.waitlist)) :=
    fun _ ha hb => hdisj (mem_idsOf_of_removeUid ha) (mem_idsOf_of_removeUid hb)
  have hwe : removeUid uid e.waitlist ≠ [] → e.waitlist ≠ [] := by
    intro hne h0
    apply hne
    rw [h0]
    rfl
  have hj1le : ((removeUid uid e.joined).length : Int) ≤ e.capacity := by
    have h1 := length_removeUid_le uid e.joined
    omega
  by_cases hj : e.joined.any (fun u => u.id == uid) = true
  · simp only [hj, Bool.true_or, if_true] at heq
    simp only [Option.some.injEq, Prod.mk.injEq] at heq
    obtain ⟨h1, h2⟩ := heq
    subst h1 h2
    obtain ⟨hp1, hp2, hp3, hp4, hp5⟩ :=
      promote_wf e.capacity (removeUid uid e.joined) (removeUid uid e.waitlist)
        hj1le hj1n hw1n hd1
    exact ⟨hcap, hp1, hp2, hp3, hp4, hp5⟩
  · by_cases hw : e.waitlist.any (fun u => u.id == uid) = true
    · simp only [hj, hw, Bool.false_or, if_true, Bool.false_eq_true, if_false] at heq
      simp only [Option.some.injEq, Prod.mk.injEq] at heq
      obtain ⟨h1, h2⟩ := heq
      subst h1 h2
      have hjid : uid ∉ idsOf e.joined := fun hmem => hj ((any_beq_iff _ _).mpr hmem)
      have hjeq : removeUid uid e.joined = e.joined := removeUid_eq_self hjid
      refine ⟨hcap, ?_, hj1n, hw1n, hd1, ?_⟩
      · show ((removeUid uid e.joined).length : Int) ≤ e.capacity
        rw [hjeq]
        exact hle
      · intro hne
        show ((removeUid uid e.joined).length : Int) = e.capacity
        rw [hjeq]
        exact hfull (hwe hne)
    · simp [hj, hw] at heq

theorem wf_remove_participant (e : Event) (uid : Int) (e' : Event) (p : List Participant)
    (h : WF e) (heq : remove_participant e uid = some (e', p)) : WF e' := by
  obtain ⟨hcap, hle, hjn, hwn, hdisj, hfull⟩ := h
  unfold remove_participant at heq
  have hj1n : (idsOf (removeUid uid e.joined)).Nodup :=
    (idsOf_removeUid_sublist _ _).nodup hjn
  have hw1n : (idsOf (removeUid uid e.waitlist)).Nodup :=
    (idsOf_removeUid_sublist _ _).nodup hwn
  have hd1 : List.Disjoint (idsOf (removeUid uid e.joined))
      (idsOf (removeUid uid e.waitlist)) :=
    fun _ ha hb => hdisj (mem_idsOf_of_removeUid ha) (mem_idsOf_of_removeUid hb)
  have hwe : removeUid uid e.waitlist ≠ [] → e.waitlist ≠ [] := by
    intro hne h0
    apply hne
    rw [h0]
    rfl
  have hj1le : ((removeUid uid e.joined).length : Int) ≤ e.capacity := by
    have h1 := length_removeUid_le uid e.joined
    omega
  by_cases hrj : (removeUid uid e.joined).length < e.joined.length
  · rw [if_pos (Or.inl hrj), if_pos hrj] at heq
    simp only [Option.some.injEq, Prod.mk.injEq] at heq
    obtain ⟨h1, h2⟩ := heq
    subst h1 h2
    obtain ⟨hp1, hp2, hp3, hp4, hp5⟩ :=
      promote_wf e.capacity (removeUid uid e.joined) (removeUid uid e.waitlist)
        hj1le hj1n hw1n hd1
    exact ⟨hcap, hp1, hp2, hp3, hp4, hp5⟩
  · have hjeq : removeUid uid e.joined = e.joined := removeUid_eq_of_not_lt hrj
    by_cases hrw : (removeUid uid e.waitlist).length < e.waitlist.length
    · rw [if_pos (Or.inr hrw), if_neg hrj] at heq
      simp only [Option.some.injEq, Prod.mk.injEq] at heq
      obtain ⟨h1, h2⟩ := heq
      subst h1 h2
      refine ⟨hcap, ?_, hj1n, hw1n, hd1, ?_⟩
      · show ((removeUid uid e.joined).length : Int) ≤ e.capacity
        rw [hjeq]
        exact hle
      · intro hne
        show ((removeUid uid e.joined).length : Int) = e.capacity
        rw [hjeq]
        exact hfull (hwe hne)
    · rw [if_neg (not_or.mpr ⟨hrj, hrw⟩)] at heq
      cases heq

theorem wf_edit_new_value_capacity (e : Event) (n : Int) (e' : Event)
    (p : List Participant) (h : WF e)
    (heq : edit_new_value_capacity e n = some (e', p)) : WF e' := by
  obtain ⟨hcap, hle, hjn, hwn, hdisj, hfull⟩ := h
  unfold edit_new_value_capacity at heq
  by_cases hn : n ≤ 0
  · rw [if_pos hn] at heq
    cases heq
  · rw [if_neg hn] at heq
    have hnpos : 0 < n := by omega
    by_cases hgt : (e.joined.length : Int) > n
    · rw [if_pos hgt] at heq
      simp only [Option.some.injEq, Prod.mk.injEq] at heq
      obtain ⟨h1, h2⟩ := heq
      subst h1 h2
      have htn : (idsOf (e.joined.take n.toNat)).Nodup := by
        rw [idsOf, List.map_take]
        exact (List.take_sublist _ _).nodup hjn
      have hdn : (idsOf (e.joined.drop n.toNat)).Nodup := by
        rw [idsOf, List.map_drop]
        exact (List.drop_sublist _ _).nodup hjn
      have htdd : List.Disjoint ((idsOf e.joined).take n.toNat)
          ((idsOf e.joined).drop n.toNat) := by
        have h2 := hjn
        rw [← List.take_append_drop n.toNat (idsOf e.joined)] at h2
        exact (List.nodup_append.mp h2).2.2
      refine ⟨hnpos, ?_, htn, ?_, ?_, ?_⟩
      · show ((e.joined.take n.toNat).length : Int) ≤ n
        rw [List.length_take]
        omega
      · show (idsOf (e.joined.drop n.toNat ++ e.waitlist)).Nodup
        rw [idsOf_append, List.nodup_append]
        refine ⟨hdn, hwn, ?_⟩
        intro a ha hb
        rw [idsOf, List.map_drop] at ha
        exact hdisj (List.drop_subset _ _ ha) hb
      · show List.Disjoint (idsOf (e.joined.take n.toNat))
          (idsOf (e.joined.drop n.toNat ++ e.waitlist))
        intro a ha hb
        rw [idsOf, List.map_take] at ha
        rw [idsOf_append, List.mem_append] at hb
        rcases hb with hb | hb
        · rw [idsOf, List.map_drop] at hb
          exact htdd ha hb
        · exact hdisj (List.take_subset _ _ ha) hb
      · intro _
        show ((e.joined.take n.toNat).length : Int) = n
        rw [List.length_take]
        omega
    · rw [if_neg hgt] at heq
      by_cases hlt : (e.joined.length : Int) < n
      · rw [if_pos hlt] at heq
        simp only [Option.some.injEq, Prod.mk.injEq] at heq
        obtain ⟨h1, h2⟩ := heq
        subst h1 h2
        obtain ⟨hp1, hp2, hp3, hp4, hp5⟩ :=
          promote_wf n e.joined e.waitlist (by omega) hjn hwn hdisj
        exact ⟨hnpos, hp1, hp2, hp3, hp4, hp5⟩
      · rw [if_neg hlt] at heq
        simp only [Option.some.injEq, Prod.mk.injEq] at heq
        obtain ⟨h1, h2⟩ := heq
        subst h1 h2
        refine ⟨hnpos, ?_, hjn, hwn, hdisj, ?_⟩
        · show (e.joined.length : Int) ≤ n
          omega
        intro _
        show (e.joined.length : Int) = n
        omega

/-- Every reachable event state satisfies the roster invariant. -/
theorem reachable_wf (e : Event) (h : Reachable e) : WF e := by
  induction h with
  | create c hc =>
      exact ⟨hc, by simp; omega, by simp [idsOf], by simp [idsOf],
        by intro a ha hb; simp [idsOf] at hb, by intro h0; simp at h0⟩
  | join e ue _ ih => exact wf_handle_join e ue ih
  | leave e uid e' p _ heq ih => exact wf_handle_leave e uid e' p ih heq
  | remove e uid e' p _ heq ih => exact wf_remove_participant e uid e' p ih heq
  | editCapacity e n e' p _ heq ih => exact wf_edit_new_value_capacity e n e' p ih heq

/-! ### Concrete participants and reachable states for the witnesses -/

/-- Participant used in witness scenarios. -/
def pA : Participant := { id := 1, name := "A", username := none }

/-- Participant used in witness scenarios. -/
def pB : Participant := { id := 2, name := "B", username := none }

/-- Participant used in witness scenarios. -/
def pC : Participant := { id := 3, name := "C", username := none }

/-- Participant used in witness scenarios. -/
def pD : Participant := { id := 4, name := "D", username := none }

/-- Participant used in witness scenarios. -/
def pE : Participant := { id := 5, name := "E", username := none }

/-- Participant used in witness scenarios. -/
def pF : Participant := { id := 6, name := "F", username := none }

theorem reachable_of_eq (e e' : Event) (h : Reachable e) (heq : e = e') :
    Reachable e' := heq ▸ h

/-- Event with capacity 1, A confirmed and B waitlisted, reached by
creating the event and pressing join as A and then as B. -/
theorem reach_ev1 : Reachable { capacity := 1, joined := [pA], waitlist := [pB] } :=
  reachable_of_eq _ _
    (Reachable.join _ pB (Reachable.join _ pA (Reachable.create 1 (by decide))))
    (by decide)

/-- Event with capacity 2 and A, B confirmed, reached by creating the
event and pressing join as A and then as B. -/
theorem reach_ev2 : Reachable { capacity := 2, joined := [pA, pB], waitlist := [] } :=
  reachable_of_eq _ _
    (Reachable.join _ pB (Reachable.join _ pA (Reachable.create 2 (by decide))))
    (by decide)

/-! ### The claims -/

/-- Claim C1: capacity bound invariant — for every reachable event state
(create, then any sequence of join/leave button presses,
`/remove_participant` and capacity edits), `len(joined) <= capacity`
holds. -/
theorem roster_capacity_bound (e : Event) (h : Reachable e) :
    (e.joined.length : Int) ≤ e.capacity :=
  (reachable_wf e h).joined_le

/-- Witness for C1 at a concrete reachable state: capacity 1 with A
confirmed and B waitlisted. -/
theorem roster_capacity_bound_witness :
    (({ capacity := 1, joined := [pA], waitlist := [pB] } : Event).joined.length : Int)
      ≤ ({ capacity := 1, joined := [pA], waitlist := [pB] } : Event).capacity :=
  roster_capacity_bound _ reach_ev1

/-- Claim C2: after every roster operation on a reachable event state, no
actor id appears in both `joined` and `waitlist`, and no actor id appears
twice within `joined` or twice within `waitlist`. -/
theorem roster_ids_nodup_disjoint (e : Event) (h : Reachable e) :
    (idsOf e.joined).Nodup ∧ (idsOf e.waitlist).Nodup ∧
      List.Disjoint (idsOf e.joined) (idsOf e.waitlist) :=
  ⟨(reachable_wf e h).joined_nodup, (reachable_wf e h).waitlist_nodup,
    (reachable_wf e h).disj⟩

/-- Witness for C2 at a concrete reachable state. -/
theorem roster_ids_nodup_disjoint_witness :
    (idsOf ({ capacity := 1, joined := [pA], waitlist := [pB] } : Event).joined).Nodup ∧
    (idsOf ({ capacity := 1, joined := [pA], waitlist := [pB] } : Event).waitlist).Nodup ∧
    List.Disjoint (idsOf ({ capacity := 1, joined := [pA], waitlist := [pB] } : Event).joined)
      (idsOf ({ capacity := 1, joined := [pA], waitlist := [pB] } : Event).waitlist) :=
  roster_ids_nodup_disjoint _ reach_ev1

/-- Claim C3: join semantics — a join first removes the actor from both
lists, then appends them to `joined` with result `confirmed` when there
is vacancy (`len(joined) < capacity` measured after the removal, so a
re-join by a waitlisted actor is decided by current vacancy, not prior
position), else appends them to the tail of `waitlist` with result
`waitlisted`; and a pure join never promotes anyone (every member of the
new `joined` was already in `joined` or is the joining actor). -/
theorem join_remove_then_add (e : Event) (ue : Participant) :
    (((removeUid ue.id e.joined).length : Int) < e.capacity →
      handle_join e ue = ({ e with joined := removeUid ue.id e.joined ++ [ue],
                                   waitlist := removeUid ue.id e.waitlist },
                          JoinResult.confirmed)) ∧
    (¬ ((removeUid ue.id e.joined).length : Int) < e.capacity →
      handle_join e ue = ({ e with joined := removeUid ue.id e.joined,
                                   waitlist := removeUid ue.id e.waitlist ++ [ue] },
                          JoinResult.waitlisted)) ∧
    (∀ v ∈ (handle_join e ue).1.joined, v ∈ e.joined ∨ v = ue) := by
  refine ⟨?_, ?_, ?_⟩
  · intro hlt
    rw [handle_join_eq, if_pos hlt]
  · intro hge
    rw [handle_join_eq, if_neg hge]
  · intro v hv
    rw [handle_join_eq] at hv
    by_cases hlt : ((removeUid ue.id e.joined).length : Int) < e.capacity
    · rw [if_pos hlt] at hv
      simp only [List.mem_append, List.mem_singleton] at hv
      rcases hv with hv | hv
      · exact Or.inl (mem_removeUid.mp hv).1
      · exact Or.inr hv
    · rw [if_neg hlt] at hv
      exact Or.inl (mem_removeUid.mp hv).1

/-- Witness for C3: the spec's re-join-while-waitlisted scenario — B is
waitlisted but a joined slot is free, so B's fresh join is confirmed. -/
theorem join_remove_then_add_witness :
    handle_join { capacity := 2, joined := [pA], waitlist := [pB] } pB
      = ({ capacity := 2, joined := [pA, pB], waitlist := [] }, JoinResult.confirmed) := by
  have h := (join_remove_then_add { capacity := 2, joined := [pA], waitlist := [pB] } pB).1
    (by decide)
  exact h.trans (by decide)

/-- Claim C4: promotion on leave is strict FIFO and fills to capacity —
when an actor who was in `joined` leaves, the promoted entries are
exactly the longest prefix of the remaining waitlist that fits the
vacancy (`min` of the free slots and the waitlist length), appended to
`joined` in queue order, and the new waitlist is the matching suffix;
one promotion event is recorded per moved actor. -/
theorem leave_promotion_fifo (e : Event) (uid : Int) (e' : Event)
    (proms : List Participant)
    (hj : e.joined.any (fun u => u.id == uid) = true)
    (heq : handle_leave e uid = some (e', proms)) :
    proms = (removeUid uid e.waitlist).take
        (min (e.capacity - ((removeUid uid e.joined).length : Int)).toNat
          (removeUid uid e.waitlist).length) ∧
    e'.joined = removeUid uid e.joined ++ proms ∧
    e'.waitlist = (removeUid uid e.waitlist).drop
        (min (e.capacity - ((removeUid uid e.joined).length : Int)).toNat
          (removeUid uid e.waitlist).length) ∧
    e'.capacity = e.capacity := by
  unfold handle_leave at heq
  simp only [hj, Bool.true_or, if_true] at heq
  simp only [Option.some.injEq, Prod.mk.injEq] at heq
  obtain ⟨h1, h2⟩ := heq
  subst h1 h2
  rw [promote_from_waitlist_eq]
  exact ⟨rfl, rfl, rfl, rfl⟩

/-- Witness for C4: the spec scenario — capacity 1, A confirmed, B
waitlisted; A leaves, B is promoted with exactly one promotion event,
`joined = [B]`, `waitlist = []`. -/
theorem leave_promotion_fifo_witness :
    handle_leave { capacity := 1, joined := [pA], waitlist := [pB] } 1
      = some ({ capacity := 1, joined := [pB], waitlist := [] }, [pB]) ∧
    ({ capacity := 1, joined := [pB], waitlist := [] } : Event).joined
      = removeUid 1 [pA] ++ [pB] := by
  have h := leave_promotion_fifo { capacity := 1, joined := [pA], waitlist := [pB] } 1
    { capacity := 1, joined := [pB], waitlist := [] } [pB] (by decide) (by decide)
  exact ⟨by decide, h.2.1⟩

/-- Claim C5: capacity reduction overflow policy — an accepted capacity
edit below `len(joined)` truncates `joined` to the new capacity and
places the overflow tail at the front of the waitlist in its prior
relative order, with no promotion events. -/
theorem capacity_reduction_overflow_front (e : Event) (n : Int)
    (hpos : 0 < n) (hlt : n < (e.joined.length : Int)) :
    edit_new_value_capacity e n =
      some ({ capacity := n,
              joined := e.joined.take n.toNat,
              waitlist := e.joined.drop n.toNat ++ e.waitlist }, []) := by
  unfold edit_new_value_capacity
  rw [if_neg (by omega), if_pos (by omega)]

/-- Witness for C5: the spec example — `joined = [A,B,C,D]`,
`waitlist = [E,F]`, capacity lowered from 4 to 2 gives `joined = [A,B]`
and `waitlist = [C,D,E,F]`. -/
theorem capacity_reduction_overflow_front_witness :
    edit_new_value_capacity
        { capacity := 4, joined := [pA, pB, pC, pD], waitlist := [pE, pF] } 2
      = some ({ capacity := 2, joined := [pA, pB],
                waitlist := [pC, pD, pE, pF] }, []) := by
  have h := capacity_reduction_overflow_front
    { capacity := 4, joined := [pA, pB, pC, pD], waitlist := [pE, pF] } 2
    (by decide) (by decide)
  exact h.trans (by decide)

/-- Claim C6: capacity-edit validation is atomic — an edit proposing a
non-positive capacity is rejected with no state change (the `ValueError`
at line 937 is raised before the assignment at line 939, embedded as the
`none` result), and any accepted edit stores the proposed capacity, so
the capacity after an accepted edit is at least 1. -/
theorem capacity_edit_rejects_nonpositive (e : Event) (n : Int) :
    (n ≤ 0 → edit_new_value_capacity e n = none) ∧
    (∀ e' p, edit_new_value_capacity e n = some (e', p) →
      1 ≤ e'.capacity ∧ e'.capacity = n) := by
  constructor
  · intro hn
    unfold edit_new_value_capacity
    rw [if_pos hn]
  · intro e' p heq
    unfold edit_new_value_capacity at heq
    by_cases hn : n ≤ 0
    · rw [if_pos hn] at heq
      cases heq
    · rw [if_neg hn] at heq
      by_cases hgt : (e.joined.length : Int) > n
      · rw [if_pos hgt] at heq
        simp only [Option.some.injEq, Prod.mk.injEq] at heq
        obtain ⟨h1, h2⟩ := heq
        subst h1
        refine ⟨?_, rfl⟩
        show (1 : Int) ≤ n
        omega
      · rw [if_neg hgt] at heq
        by_cases hlt : (e.joined.length : Int) < n
        · rw [if_pos hlt] at heq
          simp only [Option.some.injEq, Prod.mk.injEq] at heq
          obtain ⟨h1, h2⟩ := heq
          subst h1
          refine ⟨?_, rfl⟩
          show (1 : Int) ≤ n
          omega
        · rw [if_neg hlt] at heq
          simp only [Option.some.injEq, Prod.mk.injEq] at heq
          obtain ⟨h1, h2⟩ := heq
          subst h1
          refine ⟨?_, rfl⟩
          show (1 : Int) ≤ n
          omega

/-- Witness for C6: a proposed capacity of 0 is rejected, and the
accepted edit to capacity 5 yields capacity at least 1. -/
theorem capacity_edit_rejects_nonpositive_witness :
    edit_new_value_capacity { capacity := 2, joined := [pA], waitlist := [] } 0 = none ∧
    (1 : Int) ≤ ({ capacity := 5, joined := [pA], waitlist := [] } : Event).capacity := by
  refine ⟨(capacity_edit_rejects_nonpositive
    { capacity := 2, joined := [pA], waitlist := [] } 0).1 (by decide), ?_⟩
  exact ((capacity_edit_rejects_nonpositive
    { capacity := 2, joined := [pA], waitlist := [] } 5).2
    { capacity := 5, joined := [pA], waitlist := [] } [] (by decide)).1

/-- Claim C7: `/remove_participant` removes the given actor from
whichever list contains them (the actor ends up in neither list), and on
a reachable event state at most one waitlisted actor is promoted (the
loop refills the single slot a removal from `joined` can open); a
removal from the waitlist promotes nobody. -/
theorem manual_remove_promotes_at_most_one (e : Event) (uid : Int) (e' : Event)
    (proms : List Participant) (hr : Reachable e)
    (heq : remove_participant e uid = some (e', proms)) :
    proms.length ≤ 1 ∧
    uid ∉ idsOf e'.joined ∧ uid ∉ idsOf e'.waitlist ∧
    (uid ∉ idsOf e.joined → proms = []) := by
  obtain ⟨hcap, hle, hjn, hwn, hdisj, hfull⟩ := reachable_wf e hr
  unfold remove_participant at heq
  by_cases hrj : (removeUid uid e.joined).length < e.joined.length
  · rw [if_pos (Or.inl hrj), if_pos hrj] at heq
    simp only [Option.some.injEq, Prod.mk.injEq] at heq
    obtain ⟨h1, h2⟩ := heq
    subst h1 h2
    have hmem : uid ∈ idsOf e.joined := by
      by_contra hn
      rw [removeUid_eq_self hn] at hrj
      omega
    have hone := length_removeUid_of_mem hjn hmem
    refine ⟨?_, ?_, ?_, fun hn => absurd hmem hn⟩
    · rw [promote_from_waitlist_eq]
      show ((removeUid uid e.waitlist).take _).length ≤ 1
      rw [List.length_take]
      by_cases hwnil : e.waitlist = []
      · rw [hwnil]
        simp [removeUid]
      · have hfull' := hfull hwnil
        omega
    · rw [promote_from_waitlist_eq]
      show uid ∉ idsOf (removeUid uid e.joined ++ (removeUid uid e.waitlist).take _)
      rw [idsOf_append, List.mem_append]
      rintro (h | h)
      · exact not_mem_idsOf_removeUid uid e.joined h
      · apply not_mem_idsOf_removeUid uid e.waitlist
        rw [idsOf, List.map_take] at h
        rw [idsOf]
        exact List.take_subset _ _ h
    · rw [promote_from_waitlist_eq]
      show uid ∉ idsOf ((removeUid uid e.waitlist).drop _)
      intro h
      apply not_mem_idsOf_removeUid uid e.waitlist
      rw [idsOf, List.map_drop] at h
      rw [idsOf]
      exact List.drop_subset _ _ h
  · have hjeq := removeUid_eq_of_not_lt hrj
    by_cases hrw : (removeUid uid e.waitlist).length < e.waitlist.length
    · rw [if_pos (Or.inr hrw), if_neg hrj] at heq
      simp only [Option.some.injEq, Prod.mk.injEq] at heq
      obtain ⟨h1, h2⟩ := heq
      subst h1 h2
      refine ⟨by simp, ?_, ?_, fun _ => rfl⟩
      · show uid ∉ idsOf (removeUid uid e.joined)
        exact not_mem_idsOf_removeUid uid e.joined
      · show uid ∉ idsOf (removeUid uid e.waitlist)
        exact not_mem_idsOf_removeUid uid e.waitlist
    · rw [if_neg (not_or.mpr ⟨hrj, hrw⟩)] at heq
      cases heq

/-- Witness for C7: removing A from the reachable capacity-1 state with
A confirmed and B waitlisted promotes exactly one actor (B). -/
theorem manual_remove_promotes_at_most_one_witness :
    ([pB] : List Participant).length ≤ 1 ∧
    (1 : Int) ∉ idsOf ({ capacity := 1, joined := [pB], waitlist := [] } : Event).joined ∧
    (1 : Int) ∉ idsOf ({ capacity := 1, joined := [pB], waitlist := [] } : Event).waitlist ∧
    ((1 : Int) ∉ idsOf ({ capacity := 1, joined := [pA], waitlist := [pB] } : Event).joined →
      ([pB] : List Participant) = []) :=
  manual_remove_promotes_at_most_one _ 1 _ [pB] reach_ev1 (by decide)

/-- Claim C8: rendering with non-positive capacity is total and closed —
for every event with `capacity <= 0` the keyboard is built without error
and its join control is the disabled "Запись закрыта" button carrying
the `no_join` callback instead of a join-or-waitlist action, and
dispatching `no_join` through the button handler leaves the event
unchanged with no promotions. -/
theorem keyboard_closed_when_capacity_nonpositive (eid : String) (e : Event)
    (h : e.capacity ≤ 0) :
    make_event_keyboard eid e =
      [[{ text := "🔒 Запись закрыта", callbackData := "no_join" },
        { text := "❌ Не смогу прийти", callbackData := "leave|" ++ eid }]] ∧
    (∀ ue : Participant, button_handler "no_join" ue e = (e, [])) := by
  constructor
  · unfold make_event_keyboard
    rw [if_pos h]
  · intro ue
    unfold button_handler
    rw [if_pos (by rfl)]

/-- Witness for C8 at a concrete capacity-0 event. -/
theorem keyboard_closed_when_capacity_nonpositive_witness :
    make_event_keyboard "7" { capacity := 0, joined := [], waitlist := [] } =
      [[{ text := "🔒 Запись закрыта", callbackData := "no_join" },
        { text := "❌ Не смогу прийти", callbackData := "leave|" ++ "7" }]] ∧
    button_handler "no_join" pA { capacity := 0, joined := [], waitlist := [] }
      = ({ capacity := 0, joined := [], waitlist := [] }, []) := by
  have h := keyboard_closed_when_capacity_nonpositive "7"
    { capacity := 0, joined := [], waitlist := [] } (by decide)
  exact ⟨h.1, h.2 pA⟩

/-- Claim C9: implicit no-vacancy-with-waiters invariant — in every
reachable event state, a non-empty waitlist implies the joined list is
exactly at capacity. -/
theorem no_vacancy_with_waiters (e : Event) (h : Reachable e)
    (hne : e.waitlist ≠ []) : (e.joined.length : Int) = e.capacity :=
  (reachable_wf e h).full_of_waiting hne

/-- Witness for C9 at the reachable capacity-1 state with B waitlisted. -/
theorem no_vacancy_with_waiters_witness :
    (({ capacity := 1, joined := [pA], waitlist := [pB] } : Event).joined.length : Int)
      = ({ capacity := 1, joined := [pA], waitlist := [pB] } : Event).capacity :=
  no_vacancy_with_waiters _ reach_ev1 (by decide)

/-- Claim C10: a join by an actor already in `joined` of a reachable
state removes and re-appends them at the tail of `joined` with result
`confirmed` — they are never demoted to the waitlist and the waitlist is
unchanged. -/
theorem rejoin_of_member_stays_confirmed (e : Event) (ue : Participant)
    (hr : Reachable e) (hj : ue.id ∈ idsOf e.joined) :
    handle_join e ue
      = ({ e with joined := removeUid ue.id e.joined ++ [ue] },
         JoinResult.confirmed) ∧
    (handle_join e ue).1.waitlist = e.waitlist := by
  obtain ⟨hcap, hle, hjn, hwn, hdisj, hfull⟩ := reachable_wf e hr
  have hwid : ue.id ∉ idsOf e.waitlist := fun hm => hdisj hj hm
  have hweq : removeUid ue.id e.waitlist = e.waitlist := removeUid_eq_self hwid
  have hone := length_removeUid_of_mem hjn hj
  have hlt : ((removeUid ue.id e.joined).length : Int) < e.capacity := by omega
  constructor
  · rw [handle_join_eq, if_pos hlt, hweq]
  · rw [handle_join_eq, if_pos hlt]
    exact hweq

/-- Witness for C10: A re-joins the reachable capacity-2 state with A
and B confirmed; A moves to the tail of `joined`, result confirmed. -/
theorem rejoin_of_member_stays_confirmed_witness :
    handle_join { capacity := 2, joined := [pA, pB], waitlist := [] } pA
      = ({ capacity := 2, joined := [pB, pA], waitlist := [] },
         JoinResult.confirmed) := by
  have h := rejoin_of_member_stays_confirmed
    { capacity := 2, joined := [pA, pB], waitlist := [] } pA reach_ev2 (by decide)
  exact h.1.trans (by decide)
